import Mathlib

/-!
Verification development for the `fetch_baugesuche_mehrfamilienhaus_ZH.py`
harvesting pipeline.  The Python source is shallowly embedded: XML detail
documents become a tree type `XmlNode` (tag names are kept namespace-local,
matching the script's exclusive use of `{*}` wildcard paths), Python strings
become `String`, `None`/falsy results become `Option`, and the regex
`MFH_REGEX` (an alternation of `\b`-delimited keywords compiled with
`re.IGNORECASE`) becomes an executable word-boundary matcher over `List Char`.
Malformed XML (an `ET.ParseError`) is embedded as the `none` case of
`Option XmlNode`.
-/

/-! ## String utilities mirroring the Python `str` operations used -/

/-- Whitespace as recognised by Python's `str.strip` / `str.split` for the
character repertoire relevant here. -/
def isPyWs (c : Char) : Bool :=
  c == ' ' || c == '\t' || c == '\n' || c == '\r' || c == '\x0b' || c == '\x0c'

/-- Model of Python `str.strip()`. -/
def trimChars (l : List Char) : List Char :=
  ((l.dropWhile isPyWs).reverse.dropWhile isPyWs).reverse

/-- Model of Python `str.strip()` on `String`. -/
def trimS (s : String) : String := ⟨trimChars s.data⟩

/-- Model of Python `sep.join(list)`. -/
def joinWith (sep : String) : List String → String
  | [] => ""
  | [x] => x
  | x :: y :: ys => x ++ sep ++ joinWith sep (y :: ys)

/-- Helper for `str.split()`: split a character list on whitespace runs,
discarding empty words; `cur` is the (reversed) word being accumulated. -/
def wordsAux : List Char → List Char → List (List Char)
  | [], cur => if cur = [] then [] else [cur.reverse]
  | c :: rest, cur =>
    if isPyWs c then
      (if cur = [] then wordsAux rest [] else cur.reverse :: wordsAux rest [])
    else wordsAux rest (c :: cur)

/-- Model of Python `" ".join(s.split())` (whitespace normalisation). -/
def normWS (s : String) : String :=
  joinWith " " ((wordsAux s.data []).map (fun w => String.mk w))

/-- Model of Python `s.replace("\n", ", ")`. -/
def nlToComma (s : String) : String :=
  ⟨s.data.flatMap (fun c => if c == '\n' then [',', ' '] else [c])⟩

/-- Case folding used to model `re.IGNORECASE` and `str.lower()` for the
alphabet occurring in the keyword set (ASCII plus German umlauts). -/
def lowChar (c : Char) : Char :=
  if c = 'Ä' then 'ä' else if c = 'Ö' then 'ö' else if c = 'Ü' then 'ü' else c.toLower

/-- Model of Python `str.lower()` on tag names. -/
def lowerS (s : String) : String := ⟨s.data.map lowChar⟩

/-- Plain (case-sensitive) list-prefix test, for substring containment. -/
def isPrefixCh : List Char → List Char → Bool
  | [], _ => true
  | _ :: _, [] => false
  | a :: as, b :: bs => a == b && isPrefixCh as bs

/-- Substring containment on character lists (Python `needle in hay`). -/
def containsCh (needle : List Char) : List Char → Bool
  | [] => needle.isEmpty
  | c :: rest => isPrefixCh needle (c :: rest) || containsCh needle rest

/-- Model of Python `needle in hay` on strings. -/
def strContains (hay needle : String) : Bool := containsCh needle.data hay.data

/-! ## XML document model (`xml.etree.ElementTree` subset) -/

/-- An XML element: local tag name, `.text`, `.tail`, children.  The script
only ever matches tags through `{*}` wildcards or after stripping the
namespace, so tags are stored namespace-free. -/
inductive XmlNode : Type where
  | mk : String → Option String → Option String → List XmlNode → XmlNode

def XmlNode.tag : XmlNode → String | .mk t _ _ _ => t

def XmlNode.text : XmlNode → Option String | .mk _ x _ _ => x

def XmlNode.tailTxt : XmlNode → Option String | .mk _ _ x _ => x

def XmlNode.children : XmlNode → List XmlNode | .mk _ _ _ c => c

mutual
/-- Embedding of the script's `text_of`: joins the stripped, non-empty parts
(element text, then per child its recursive text and its tail) with spaces. -/
def text_of : XmlNode → String
  | .mk _ txt _ children =>
    joinWith " " (((txt.toList ++ textParts children).map trimS).filter
      (fun t => decide (t ≠ "")))
/-- The per-child part list `[text_of child, child.tail]` of `text_of`. -/
def textParts : List XmlNode → List String
  | [] => []
  | c :: cs => (text_of c :: c.tailTxt.toList) ++ textParts cs
end

mutual
/-- Strict descendants of a node in document (preorder) order, the order in
which `ElementTree` reports `.//` matches. -/
def descendants : XmlNode → List XmlNode
  | .mk _ _ _ cs => descList cs
/-- Preorder flattening of a forest. -/
def descList : List XmlNode → List XmlNode
  | [] => []
  | c :: cs => c :: (descendants c ++ descList cs)
end

/-- All descendants matching a tag: `elem.findall(".//{*}tag")`. -/
def findAllDesc (n : XmlNode) (tag : String) : List XmlNode :=
  (descendants n).filter (fun m => m.tag == tag)

/-- First descendant matching a tag: `elem.find(".//{*}tag")`. -/
def findDesc (n : XmlNode) (tag : String) : Option XmlNode :=
  (findAllDesc n tag).head?

/-- All matches of `elem.findall(".//{*}t1/{*}t2")`: `t2`-children of each
`t1`-descendant, in document order. -/
def findAllDescChild (n : XmlNode) (t1 t2 : String) : List XmlNode :=
  (findAllDesc n t1).flatMap (fun a => a.children.filter (fun c => c.tag == t2))

/-- First match of `elem.find(".//{*}t1/{*}t2")`. -/
def findDescChild (n : XmlNode) (t1 t2 : String) : Option XmlNode :=
  (findAllDescChild n t1 t2).head?

/-- `elem.findtext(".//{*}tag")`: `none` when no element matches, otherwise
the element's text with `None` text read as `""`. -/
def findtextDesc (n : XmlNode) (tag : String) : Option String :=
  (findDesc n tag).map (fun e => e.text.getD "")

/-! ## The MFH keyword matcher (`MFH_REGEX` and `re.search`) -/

/-- Word characters for the `\b` boundaries of `MFH_REGEX` (Python `\w` with
`re.UNICODE`, restricted to the alphabet relevant to these documents). -/
def isWordChar (c : Char) : Bool :=
  c.isAlphanum || c == '_' || c == 'ä' || c == 'ö' || c == 'ü' ||
  c == 'Ä' || c == 'Ö' || c == 'Ü' || c == 'ß'

/-- Case-insensitive prefix test of a pattern word against the haystack. -/
def prefixCI : List Char → List Char → Bool
  | [], _ => true
  | _ :: _, [] => false
  | a :: ps, b :: hs => (lowChar a == lowChar b) && prefixCI ps hs

/-- The `\b` boundary just after a matched word: end of haystack or a
non-word character. -/
def tailBoundary : List Char → Bool
  | [] => true
  | c :: _ => !isWordChar c

/-- The `\b` boundary just before a matched word, given the preceding
character (`none` at the start of the haystack). -/
def boundaryOk : Option Char → Bool
  | none => true
  | some c => !isWordChar c

/-- Does pattern word `p` match at the head of `h`, with a trailing `\b`? -/
def matchesHere (p h : List Char) : Bool :=
  prefixCI p h && tailBoundary (h.drop p.length)

/-- Try the alternation's branches in order at one haystack position,
returning the matched substring (verbatim from the haystack). -/
def tryPatsAt (pats : List (List Char)) (prev : Option Char) (h : List Char) :
    Option (List Char) :=
  match pats with
  | [] => none
  | p :: ps =>
    if boundaryOk prev && matchesHere p h then some (h.take p.length)
    else tryPatsAt ps prev h

/-- Leftmost search of the alternation, scanning positions left to right
(including the end-of-string position): the semantics of `MFH_REGEX.search`
for this pattern shape. -/
def searchAux (pats : List (List Char)) (prev : Option Char) :
    List Char → Option (List Char)
  | [] =>
    (match tryPatsAt pats prev [] with
     | some s => some s
     | none => none)
  | c :: rest =>
    (match tryPatsAt pats prev (c :: rest) with
     | some s => some s
     | none => searchAux pats (some c) rest)

/-- The keyword alternation of `MFH_PATTERNS`, in source order; each word is
wrapped in `\b ... \b` by the matcher and matched case-insensitively. -/
def MFH_PATTERNS : List String :=
  ["MFH", "Mehrfamilienhaus", "Mehrfamilienhäuser",
   "Mehrfamilienwohnhaus", "Mehrparteienhaus", "Mehrparteienhäuser",
   "Wohnblock", "Wohnanlage", "Wohnüberbauung", "Überbauung",
   "Reihenhaus", "Reihenhäuser",
   "Reihenfamilienhaus", "Reiheneinfamilienhaus", "Reiheneinfamilienhäuser",
   "Wohnbau", "Wohnbebauung",
   "Mehrfamiliengebäude", "Mehrfamilienwohngebäude"]

/-- `MFH_REGEX.search` on a character list. -/
def mfhSearch (h : List Char) : Option (List Char) :=
  searchAux (MFH_PATTERNS.map String.data) none h

/-- The haystack built by `is_mfh_like`: title, then (for a parsed document)
the text of `.//{*}content/{*}projectDescription` if present and the text of
`.//{*}content` if present, joined with single spaces. -/
def mfhHaystack (detail : Option XmlNode) (title : String) : String :=
  let parts := [title] ++
    (match detail with
     | none => []
     | some root =>
       (match findDescChild root "content" "projectDescription" with
        | some pd => [text_of pd]
        | none => []) ++
       (match findDesc root "content" with
        | some content => [text_of content]
        | none => []))
  joinWith " " parts

/-- Embedding of `is_mfh_like(detail_xml, title)`; `detail = none` is the
`ET.ParseError` case (`root = None`). -/
def is_mfh_like (detail : Option XmlNode) (title : String) : Option String :=
  (mfhSearch (mfhHaystack detail title).data).map (fun l => String.mk l)

/-! ## Bauherrschaft extractors -/

/-- The shared dedup loop (`seen` set plus `uniq` list): keeps the first
occurrence of each non-empty string, in order. -/
def dedupeLoop : List String → List String → List String → List String
  | [], _, uniq => uniq
  | p :: ps, seen, uniq =>
    if p ≠ "" ∧ p ∉ seen then dedupeLoop ps (p :: seen) (uniq ++ [p])
    else dedupeLoop ps seen uniq

/-- Dedup with empty initial state, as every call site uses it. -/
def dedup (pieces : List String) : List String := dedupeLoop pieces [] []

/-- A person's `" ".join(x for x in [prename, name] if x)`. -/
def personFullName (person : XmlNode) : String :=
  joinWith " " ([trimS ((findtextDesc person "prename").getD ""),
                 trimS ((findtextDesc person "name").getD "")].filter
    (fun x => decide (x ≠ "")))

/-- The ZH address text: street, house number, zip, town joined by spaces
with absent (`None`) and empty tokens dropped (`filter(None, ...)`). -/
def zhAddrTxt (addr : XmlNode) : String :=
  joinWith " " ((([findtextDesc addr "street", findtextDesc addr "houseNumber",
                   findtextDesc addr "swissZipCode", findtextDesc addr "town"]).filterMap id).filter
    (fun x => decide (x ≠ "")))

/-- One iteration of the ZH person loop: `none` when the name is empty
(nothing appended), otherwise the rendered entry, with the parenthesised
Swiss address when present and non-empty. -/
def zhPersonPiece (person : XmlNode) : Option String :=
  let full := personFullName person
  if full = "" then none
  else
    some (match findDesc person "addressSwitzerland" with
          | none => full
          | some addr =>
            let addrTxt := zhAddrTxt addr
            if addrTxt = "" then full else full ++ " (" ++ addrTxt ++ ")")

/-- One iteration of the company loop (identical in the ZH and ZG
extractors): `none` when the company name is empty, otherwise the name with
the parenthesised custom address (newlines replaced by `", "`) if any. -/
def companyPiece (company : XmlNode) : Option String :=
  let cname := trimS ((findtextDesc company "name").getD "")
  if cname = "" then none
  else
    let customAddr := nlToComma (trimS ((findtextDesc company "customAddress").getD ""))
    some (if customAddr = "" then cname else cname ++ " (" ++ customAddr ++ ")")

/-- `bc.findall(".//{*}persons/{*}person")`. -/
def zhPersons (bc : XmlNode) : List XmlNode := findAllDescChild bc "persons" "person"

/-- `bc.findall(".//{*}companies/{*}company")`. -/
def zhCompanies (bc : XmlNode) : List XmlNode := findAllDescChild bc "companies" "company"

/-- The ZH raw-text fallback: whitespace-normalised join of the text of the
block's direct children (`" ".join(text_of(el) for el in bc)` re-joined by
`" ".join(txt.split())`). -/
def zhRawFallback (bc : XmlNode) : String :=
  normWS (joinWith " " (bc.children.map text_of))

/-- The `pieces` list built by the ZH extractor's two loops: rendered
persons, then rendered companies, empties skipped. -/
def zhPieces (bc : XmlNode) : List String :=
  (zhPersons bc).filterMap zhPersonPiece ++ (zhCompanies bc).filterMap companyPiece

/-- Embedding of `extract_bauherrschaft_precise_zh`. -/
def extract_bauherrschaft_precise_zh (root : XmlNode) : String :=
  match findDescChild root "content" "buildingContractor" with
  | none => ""
  | some bc =>
    if zhPieces bc = [] then zhRawFallback bc
    else joinWith " | " (dedup (zhPieces bc))

/-- One iteration of the ZG person loop (no address handling). -/
def zgPersonPiece (person : XmlNode) : Option String :=
  let full := personFullName person
  if full = "" then none else some full

/-- The structured person/company entries of one ZG container node. -/
def zgStructuredPieces (node : XmlNode) : List String :=
  (findAllDescChild node "persons" "person").filterMap zgPersonPiece ++
  (findAllDescChild node "companies" "company").filterMap companyPiece

/-- The ZG container nodes in the order the path list is traversed
(`buildingContractor`, `bauherrschaft`, `gesuchsteller`, `applicant`,
`applicants/applicant`), each path in document order. -/
def zgContainers (content : XmlNode) : List XmlNode :=
  findAllDesc content "buildingContractor" ++
  findAllDesc content "bauherrschaft" ++
  findAllDesc content "gesuchsteller" ++
  findAllDesc content "applicant" ++
  findAllDescChild content "applicants" "applicant"

/-- One iteration of the ZG container loop over the shared `pieces` list:
structured entries are appended, and only when the whole accumulated list is
still empty is the node's own raw text appended. -/
def zgContainerStep (pieces : List String) (node : XmlNode) : List String :=
  let pieces := pieces ++ zgStructuredPieces node
  if pieces = [] then
    let txt := trimS (text_of node)
    if txt ≠ "" then pieces ++ [normWS txt] else pieces
  else pieces

/-- The generic fallback entries: raw text of every `party`, `person` or
`company` descendant of `content`, non-empty ones only, normalised. -/
def zgGenericPieces (content : XmlNode) : List String :=
  (findAllDesc content "party" ++ findAllDesc content "person" ++
   findAllDesc content "company").filterMap
    (fun node =>
      let txt := trimS (text_of node)
      if txt ≠ "" then some (normWS txt) else none)

/-- The `pieces` list after the ZG container loop. -/
def zgFoldPieces (content : XmlNode) : List String :=
  (zgContainers content).foldl zgContainerStep []

/-- The effective `pieces` list of the ZG extractor: the container loop's
result, or the generic fallback when that is empty. -/
def zgPieces (content : XmlNode) : List String :=
  if zgFoldPieces content = [] then zgGenericPieces content else zgFoldPieces content

/-- Embedding of `extract_bauherrschaft_precise_zg`. -/
def extract_bauherrschaft_precise_zg (root : XmlNode) : String :=
  match findDesc root "content" with
  | none => ""
  | some content =>
    if zgPieces content = [] then "" else joinWith " | " (dedup (zgPieces content))

/-- The tier-3 heuristic entries: text of every node (including the root)
whose lower-cased local tag contains `"bauherr"` or `"gesuchstell"`. -/
def heuristicPieces (root : XmlNode) : List String :=
  (root :: descendants root).filterMap
    (fun node =>
      let tag := lowerS node.tag
      if strContains tag "bauherr" || strContains tag "gesuchstell" then
        let txt := text_of node
        if txt ≠ "" then some (normWS txt) else none
      else none)

/-- Embedding of `extract_bauherrschaft(detail_xml, canton)`; `none` is the
`ET.ParseError` case. -/
def extract_bauherrschaft (detail : Option XmlNode) (canton : String) : String :=
  match detail with
  | none => ""
  | some root =>
    let val := if canton = "ZH" then extract_bauherrschaft_precise_zh root
               else if canton = "ZG" then extract_bauherrschaft_precise_zg root
               else ""
    if val ≠ "" then val
    else
      let acc := heuristicPieces root
      if acc = [] then "" else joinWith " | " (dedup acc)

/-! ## Listing pagination and the orchestrator (`main`) -/

/-- `PAGE_SIZE` from the script. -/
def PAGE_SIZE : Nat := 2000

/-- One listing descriptor as produced by `parse_list`. -/
structure Item where
  ref : String
  publicationNumber : String
  date : String
  title : String
  canton : String
deriving DecidableEq

/-- The pagination loop of `main`, driven by an abstract remote: `fetchPage
page = none` models a failed (or empty-bodied) `fetch_list_page`, `some
batch` the parsed descriptor list.  Returns the accumulated items and the
number of page fetches performed; `fuel` bounds the unrolling of the
`while True` loop. -/
def runList (fetchPage : Nat → Option (List Item)) : Nat → Nat → List Item × Nat
  | 0, _ => ([], 0)
  | fuel+1, page =>
    match fetchPage page with
    | none => ([], 1)
    | some batch =>
      if batch = [] then ([], 1)
      else if batch.length < PAGE_SIZE then (batch, 1)
      else
        let r := runList fetchPage fuel (page+1)
        (batch ++ r.1, r.2 + 1)

/-- One row of the output CSV. -/
structure OutputRecord where
  canton : String
  publicationNumber : String
  date : String
  title : String
  bauherrschaft : String
  match_term : String
  ref : String
deriving DecidableEq

/-- The per-descriptor worker body of `main`'s fetch loop: skip when the
detail fetch yields nothing, skip when the classifier yields no (or an
empty) match term, otherwise build the output record with the defaulted
canton.  `fetchDetail ref = none` models a failed detail fetch; `some
detail` carries the parse result of the fetched text. -/
def processItem (fetchDetail : String → Option (Option XmlNode)) (it : Item) :
    Option OutputRecord :=
  match fetchDetail it.ref with
  | none => none
  | some detail =>
    match is_mfh_like detail it.title with
    | none => none
    | some matchTerm =>
      if matchTerm = "" then none
      else
        let canton := if trimS it.canton = "" then "ZH" else trimS it.canton
        some { canton := canton
               publicationNumber := it.publicationNumber
               date := it.date
               title := it.title
               bauherrschaft := extract_bauherrschaft detail canton
               match_term := matchTerm
               ref := it.ref }

/-- The result collection after the worker pool has drained: one
`processItem` outcome per descriptor (completion order does not affect which
records exist, which is all the theorems below depend on). -/
def collectResults (fetchDetail : String → Option (Option XmlNode))
    (items : List Item) : List OutputRecord :=
  items.filterMap (processItem fetchDetail)

/-- The sort key of the final `results.sort`: `(canton, date,
publicationNumber)`. -/
def recKey (r : OutputRecord) : String × String × String :=
  (r.canton, r.date, r.publicationNumber)

/-- Lexicographic order on the sort key. -/
def tripleLe (a b : String × String × String) : Prop :=
  a.1 < b.1 ∨ (a.1 = b.1 ∧ (a.2.1 < b.2.1 ∨ (a.2.1 = b.2.1 ∧ a.2.2 ≤ b.2.2)))

instance (a b : String × String × String) : Decidable (tripleLe a b) := by
  unfold tripleLe; infer_instance

/-- The comparison `results.sort(key=..., reverse=True)` sorts by:
descending lexicographic key order (equal keys keep list order, as Python's
stable sort does). -/
def recLeDesc (a b : OutputRecord) : Bool := decide (tripleLe (recKey b) (recKey a))

/-- The final sort of `main`, applied once to the complete collection. -/
def sortRecords (l : List OutputRecord) : List OutputRecord := l.mergeSort recLeDesc

/-- The rows handed to the CSV writer: the single final sort applied to the
fully collected results. -/
def mainResults (fetchDetail : String → Option (Option XmlNode))
    (items : List Item) : List OutputRecord :=
  sortRecords (collectResults fetchDetail items)

/-! ## Declarative companions used to state the claims -/

/-- Declaratively: pattern word `p` occurs in haystack `h` at position `i`,
case-insensitively and delimited by word boundaries on both sides. -/
def WordOccursAt (p h : List Char) (i : Nat) : Prop :=
  i + p.length ≤ h.length ∧
  ((h.drop i).take p.length).map lowChar = p.map lowChar ∧
  (i = 0 ∨ isWordChar (h.getD (i-1) ' ') = false) ∧
  (i + p.length = h.length ∨ isWordChar (h.getD (i + p.length) ' ') = false)

instance (p h : List Char) (i : Nat) : Decidable (WordOccursAt p h i) := by
  unfold WordOccursAt; infer_instance

/-- Some configured keyword occurs at position `i` of `h`. -/
def MfhMatchAt (h : List Char) (i : Nat) : Prop :=
  ∃ p ∈ MFH_PATTERNS, WordOccursAt p.data h i

instance (h : List Char) (i : Nat) : Decidable (MfhMatchAt h i) := by
  unfold MfhMatchAt; infer_instance

/-- Reference dedup: drop empty strings, keep the first occurrence of every
other string, preserving first-appearance order. -/
def firstDedupNE : List String → List String
  | [] => []
  | x :: xs =>
    if x = "" then firstDedupNE xs
    else x :: firstDedupNE (xs.filter (fun y => decide (y ≠ x)))
termination_by l => l.length
decreasing_by
  · simp only [List.length_cons]; omega
  · simp only [List.length_cons]
    exact Nat.lt_succ_of_le (xs.length_filter_le _)

/-! ## C3: pagination termination -/

/-- C3: the paginator starts at page 0 and walks pages in increasing order;
it stops after a single fetch when the first page fails or comes back short
of `PAGE_SIZE` (including the zero-descriptor case), performs exactly two
fetches returning both batches for a full page 0 followed by a short page 1,
and keeps fetching (accumulating the batch and moving to the next page)
exactly when a page is non-empty and not short. -/
theorem c3_paginator_stops :
    (∀ (fetchPage : Nat → Option (List Item)) (fuel : Nat),
      (fetchPage 0 = none ∨ ∃ b, fetchPage 0 = some b ∧ b.length < PAGE_SIZE) →
      (runList fetchPage (fuel + 1) 0).2 = 1) ∧
    (∀ (fetchPage : Nat → Option (List Item)) (fuel : Nat) (b0 b1 : List Item),
      fetchPage 0 = some b0 → b0.length = PAGE_SIZE →
      fetchPage 1 = some b1 → b1.length < PAGE_SIZE →
      runList fetchPage (fuel + 2) 0 = (b0 ++ b1, 2)) ∧
    (∀ (fetchPage : Nat → Option (List Item)) (fuel page : Nat) (b : List Item),
      fetchPage page = some b → b ≠ [] → PAGE_SIZE ≤ b.length →
      runList fetchPage (fuel + 1) page =
        (b ++ (runList fetchPage fuel (page + 1)).1,
         (runList fetchPage fuel (page + 1)).2 + 1)) := by
  refine ⟨?_, ?_, ?_⟩
  · intro f fuel h
    rcases h with h | ⟨b, hb, hlen⟩
    · simp [runList, h]
    · by_cases hnil : b = []
      · simp [runList, hb, hnil]
      · simp [runList, hb, hnil, hlen]
  · intro f fuel b0 b1 h0 hlen0 h1 hlen1
    have hb0ne : ¬ (b0 = []) := by
      intro h; subst h; simp [PAGE_SIZE] at hlen0
    have hb0nlt : ¬ (b0.length < PAGE_SIZE) := by simp [hlen0]
    by_cases hnil1 : b1 = []
    · subst hnil1
      simp [runList, h0, hb0ne, hb0nlt, h1]
    · simp [runList, h0, hb0ne, hb0nlt, h1, hnil1, hlen1]
  · intro f fuel page b hb hne hge
    have hnlt : ¬ (b.length < PAGE_SIZE) := by omega
    simp [runList, hb, hne, hnlt]

/-- Concrete descriptor used by witnesses. -/
def itemA : Item := ⟨"ref0", "p0", "2024-01-01", "t", "ZH"⟩

/-- Witness for C3: a full page 0 and a one-element page 1 give exactly two
fetches and the concatenation of both batches. -/
theorem c3_paginator_stops_witness :
    runList (fun p => if p = 0 then some (List.replicate PAGE_SIZE itemA) else some [itemA]) 7 0 =
      (List.replicate PAGE_SIZE itemA ++ [itemA], 2) :=
  c3_paginator_stops.2.1 _ 5 (List.replicate PAGE_SIZE itemA) [itemA] rfl
    (by simp) rfl (by simp [PAGE_SIZE])

/-! ## C8 and C10: orchestrator invariants -/

/-- C8: every collected output record carries a non-empty match token, and a
record exists only for a descriptor whose detail fetch succeeded and whose
classification produced exactly that token. -/
theorem c8_output_only_matches :
    ∀ (fetchDetail : String → Option (Option XmlNode)) (items : List Item) (r : OutputRecord),
      r ∈ collectResults fetchDetail items →
      r.match_term ≠ "" ∧
      ∃ it ∈ items, ∃ detail, fetchDetail it.ref = some detail ∧
        is_mfh_like detail it.title = some r.match_term := by
  intro fetch items r hr
  rw [collectResults, List.mem_filterMap] at hr
  obtain ⟨it, hit, hp⟩ := hr
  cases hf : fetch it.ref with
  | none => simp [processItem, hf] at hp
  | some detail =>
    cases hm : is_mfh_like detail it.title with
    | none => simp [processItem, hf, hm] at hp
    | some t =>
      by_cases ht : t = ""
      · simp [processItem, hf, hm, if_pos ht] at hp
      · simp only [processItem, hf, hm, if_neg ht] at hp
        obtain rfl := Option.some.inj hp
        exact ⟨ht, it, hit, detail, hf, hm⟩

/-- Concrete descriptor with a whitespace-only canton and a matching title. -/
def itemM : Item := ⟨"refM", "p1", "2024-01-02", "Neubau MFH", " "⟩

/-- Detail fetcher for witnesses: the fetch succeeds but the body is
unparsable. -/
def fetchM : String → Option (Option XmlNode) := fun _ => some none

/-- Output record produced for `itemM` under `fetchM`. -/
def recM : OutputRecord := ⟨"ZH", "p1", "2024-01-02", "Neubau MFH", "", "MFH", "refM"⟩

/-- Witness for C8 at a concrete run. -/
theorem c8_output_only_matches_witness :
    recM.match_term ≠ "" ∧
    ∃ it ∈ [itemM], ∃ detail, fetchM it.ref = some detail ∧
      is_mfh_like detail it.title = some recM.match_term :=
  c8_output_only_matches fetchM [itemM] recM (by decide)

/-- C10: a descriptor with an empty or whitespace-only canton is given the
default jurisdiction tag `"ZH"` in its output record, and its party field is
computed by the extractor under that same `"ZH"` tag. -/
theorem c10_default_canton :
    ∀ (fetchDetail : String → Option (Option XmlNode)) (it : Item) (r : OutputRecord),
      trimS it.canton = "" →
      processItem fetchDetail it = some r →
      r.canton = "ZH" ∧
      ∃ detail, fetchDetail it.ref = some detail ∧
        r.bauherrschaft = extract_bauherrschaft detail "ZH" := by
  intro fetch it r hc hp
  cases hf : fetch it.ref with
  | none => simp [processItem, hf] at hp
  | some detail =>
    cases hm : is_mfh_like detail it.title with
    | none => simp [processItem, hf, hm] at hp
    | some t =>
      by_cases ht : t = ""
      · simp [processItem, hf, hm, if_pos ht] at hp
      · simp only [processItem, hf, hm, if_neg ht, if_pos hc] at hp
        obtain rfl := Option.some.inj hp
        exact ⟨rfl, detail, rfl, rfl⟩

/-- Witness for C10 at a concrete run. -/
theorem c10_default_canton_witness :
    recM.canton = "ZH" ∧
    ∃ detail, fetchM itemM.ref = some detail ∧
      recM.bauherrschaft = extract_bauherrschaft detail "ZH" :=
  c10_default_canton fetchM itemM recM (by decide) (by decide)

/-! ## C5: dedup law -/

/-- The shared dedup loop equals the reference first-occurrence dedup of the
not-yet-seen elements, appended to the accumulator. -/
theorem dedupeLoop_eq_firstDedupNE :
    ∀ (l seen uniq : List String),
      dedupeLoop l seen uniq =
        uniq ++ firstDedupNE (l.filter (fun p => decide (p ∉ seen))) := by
  intro l
  induction l with
  | nil => intro seen uniq; simp [dedupeLoop, firstDedupNE]
  | cons p ps ih =>
    intro seen uniq
    by_cases hseen : p ∈ seen
    · have hcond : ¬ (p ≠ "" ∧ p ∉ seen) := by tauto
      rw [dedupeLoop, if_neg hcond, ih]
      have hf : List.filter (fun q => decide (q ∉ seen)) (p :: ps) =
          List.filter (fun q => decide (q ∉ seen)) ps := by
        rw [List.filter_cons]; simp [hseen]
      rw [hf]
    · by_cases hemp : p = ""
      · have hcond : ¬ (p ≠ "" ∧ p ∉ seen) := by tauto
        rw [dedupeLoop, if_neg hcond, ih]
        have hf : List.filter (fun q => decide (q ∉ seen)) (p :: ps) =
            p :: List.filter (fun q => decide (q ∉ seen)) ps := by
          rw [List.filter_cons]; simp [hseen]
        rw [hf]
        subst hemp
        rw [firstDedupNE, if_pos rfl]
      · have hcond : p ≠ "" ∧ p ∉ seen := ⟨hemp, hseen⟩
        rw [dedupeLoop, if_pos hcond, ih]
        have hf : List.filter (fun q => decide (q ∉ seen)) (p :: ps) =
            p :: List.filter (fun q => decide (q ∉ seen)) ps := by
          rw [List.filter_cons]; simp [hseen]
        rw [hf, firstDedupNE, if_neg hemp]
        have hff : List.filter (fun q => decide (q ∉ p :: seen)) ps =
            List.filter (fun y => decide (y ≠ p))
              (List.filter (fun q => decide (q ∉ seen)) ps) := by
          rw [List.filter_filter]
          apply List.filter_congr
          intro y _
          by_cases h1 : y = p <;> by_cases h2 : y ∈ seen <;> simp [h1, h2]
        rw [hff]
        simp

/-- Membership in the reference dedup: exactly the non-empty elements. -/
theorem firstDedupNE_mem_bound :
    ∀ (n : Nat) (l : List String), l.length ≤ n →
      ∀ x, x ∈ firstDedupNE l ↔ (x ∈ l ∧ x ≠ "") := by
  intro n
  induction n with
  | zero =>
    intro l hl x
    have hnil : l = [] := List.length_eq_zero.mp (Nat.le_zero.mp hl)
    subst hnil; simp [firstDedupNE]
  | succ n ih =>
    intro l hl x
    match l with
    | [] => simp [firstDedupNE]
    | y :: ys =>
      have hys : ys.length ≤ n := by
        simp only [List.length_cons] at hl; omega
      by_cases hy : y = ""
      · rw [firstDedupNE, if_pos hy, ih ys hys x]
        subst hy
        constructor
        · rintro ⟨hx, hne⟩; exact ⟨List.mem_cons_of_mem _ hx, hne⟩
        · rintro ⟨hx, hne⟩
          rcases List.mem_cons.mp hx with rfl | hx
          · exact absurd rfl hne
          · exact ⟨hx, hne⟩
      · have hfl : (ys.filter (fun z => decide (z ≠ y))).length ≤ n := by
          have h1 := List.length_filter_le (fun z => decide (z ≠ y)) ys
          omega
        rw [firstDedupNE, if_neg hy, List.mem_cons, ih _ hfl x, List.mem_filter]
        constructor
        · rintro (rfl | ⟨⟨hx, hxy⟩, hne⟩)
          · exact ⟨List.mem_cons_self _ _, hy⟩
          · exact ⟨List.mem_cons_of_mem _ hx, hne⟩
        · rintro ⟨hx, hne⟩
          by_cases hxy : x = y
          · exact Or.inl hxy
          · rcases List.mem_cons.mp hx with rfl | hx
            · exact Or.inl rfl
            · exact Or.inr ⟨⟨hx, by simp [hxy]⟩, hne⟩

/-- The reference dedup has no duplicates. -/
theorem firstDedupNE_nodup_bound :
    ∀ (n : Nat) (l : List String), l.length ≤ n → (firstDedupNE l).Nodup := by
  intro n
  induction n with
  | zero =>
    intro l hl
    have hnil : l = [] := List.length_eq_zero.mp (Nat.le_zero.mp hl)
    subst hnil; simp [firstDedupNE]
  | succ n ih =>
    intro l hl
    match l with
    | [] => simp [firstDedupNE]
    | y :: ys =>
      have hys : ys.length ≤ n := by
        simp only [List.length_cons] at hl; omega
      by_cases hy : y = ""
      · rw [firstDedupNE, if_pos hy]; exact ih ys hys
      · have hfl : (ys.filter (fun z => decide (z ≠ y))).length ≤ n := by
          have h1 := List.length_filter_le (fun z => decide (z ≠ y)) ys
          omega
        rw [firstDedupNE, if_neg hy, List.nodup_cons]
        refine ⟨?_, ih _ hfl⟩
        intro hmem
        have := (firstDedupNE_mem_bound n _ hfl y).mp hmem
        rcases this with ⟨hmemf, _⟩
        rcases List.mem_filter.mp hmemf with ⟨_, hdec⟩
        simp at hdec

/-- The reference dedup is a sublist (keeps first-appearance order). -/
theorem firstDedupNE_sublist_bound :
    ∀ (n : Nat) (l : List String), l.length ≤ n → List.Sublist (firstDedupNE l) l := by
  intro n
  induction n with
  | zero =>
    intro l hl
    have hnil : l = [] := List.length_eq_zero.mp (Nat.le_zero.mp hl)
    subst hnil; simp [firstDedupNE]
  | succ n ih =>
    intro l hl
    match l with
    | [] => simp [firstDedupNE]
    | y :: ys =>
      have hys : ys.length ≤ n := by
        simp only [List.length_cons] at hl; omega
      by_cases hy : y = ""
      · rw [firstDedupNE, if_pos hy]
        exact (ih ys hys).cons y
      · have hfl : (ys.filter (fun z => decide (z ≠ y))).length ≤ n := by
          have h1 := List.length_filter_le (fun z => decide (z ≠ y)) ys
          omega
        rw [firstDedupNE, if_neg hy]
        exact (List.Sublist.trans (ih _ hfl) (List.filter_sublist ys)).cons₂ y

/-- The dedup used at every call site is exactly the reference dedup. -/
theorem dedup_eq_firstDedupNE (l : List String) : dedup l = firstDedupNE l := by
  rw [dedup, dedupeLoop_eq_firstDedupNE]
  simp

/-- Joining the dedup of a single piece returns it unchanged. -/
theorem joinWith_dedup_single (s : String) : joinWith " | " (dedup [s]) = s := by
  by_cases h : s = ""
  · subst h; simp [dedup, dedupeLoop, joinWith]
  · simp [dedup, dedupeLoop, h, joinWith]

/-- C5: the dedup applied by the extractors keeps the first occurrence of
each distinct non-empty entry in first-appearance order (it equals the
reference first-occurrence dedup, is duplicate-free, is a sublist of the
input, and contains exactly the input's non-empty entries), both precise
extractors join the deduped piece list with `" | "`, and the tier-1 example
`["Jane Doe (Main St 1)", "Jane Doe (Main St 1)"]` dedups to a single
occurrence at first-seen position. -/
theorem c5_dedup_law :
    (∀ l : List String, dedup l = firstDedupNE l) ∧
    (∀ l : List String, (dedup l).Nodup ∧ List.Sublist (dedup l) l ∧
      (∀ x, x ∈ dedup l ↔ (x ∈ l ∧ x ≠ ""))) ∧
    (∀ root bc, findDescChild root "content" "buildingContractor" = some bc →
      zhPieces bc ≠ [] →
      extract_bauherrschaft_precise_zh root = joinWith " | " (dedup (zhPieces bc))) ∧
    (∀ root content, findDesc root "content" = some content →
      zgPieces content ≠ [] →
      extract_bauherrschaft_precise_zg root = joinWith " | " (dedup (zgPieces content))) ∧
    dedup ["Jane Doe (Main St 1)", "Jane Doe (Main St 1)"] = ["Jane Doe (Main St 1)"] := by
  refine ⟨dedup_eq_firstDedupNE, ?_, ?_, ?_, by decide⟩
  · intro l
    rw [dedup_eq_firstDedupNE]
    exact ⟨firstDedupNE_nodup_bound l.length l le_rfl,
           firstDedupNE_sublist_bound l.length l le_rfl,
           firstDedupNE_mem_bound l.length l le_rfl⟩
  · intro root bc hbc hne
    rw [extract_bauherrschaft_precise_zh, hbc]
    exact if_neg hne
  · intro root content hc hne
    rw [extract_bauherrschaft_precise_zg, hc]
    exact if_neg hne

/-- Person element rendering to `"Jane Doe (Main St 1)"`. -/
def c5wperson : XmlNode :=
  .mk "person" none none
    [.mk "prename" (some "Jane") none [],
     .mk "name" (some "Doe") none [],
     .mk "addressSwitzerland" none none
       [.mk "street" (some "Main St") none [],
        .mk "houseNumber" (some "1") none []]]

/-- ZH contractor block containing the same person twice. -/
def c5wbc : XmlNode :=
  .mk "buildingContractor" none none
    [.mk "persons" none none [c5wperson, c5wperson]]

/-- Document whose tier-1 piece list is the duplicated Jane Doe entry. -/
def c5wroot : XmlNode :=
  .mk "publication" none none [.mk "content" none none [c5wbc]]

/-- Witness for C5: on the duplicated-person document the extractor emits
exactly one `"Jane Doe (Main St 1)"`. -/
theorem c5_dedup_law_witness :
    extract_bauherrschaft_precise_zh c5wroot = joinWith " | " (dedup (zhPieces c5wbc)) ∧
    zhPieces c5wbc = ["Jane Doe (Main St 1)", "Jane Doe (Main St 1)"] ∧
    extract_bauherrschaft_precise_zh c5wroot = "Jane Doe (Main St 1)" :=
  ⟨c5_dedup_law.2.2.1 c5wroot c5wbc rfl (by decide), by decide, by decide⟩

/-! ## C6: ZH raw-text fallback -/

/-- Empty ZH contractor block (no children, no text). -/
def c6bc : XmlNode := .mk "buildingContractor" none none []

/-- Document with an existing but textless contractor block, plus an
unrelated `bauherrschaft`-tagged node elsewhere. -/
def c6root : XmlNode :=
  .mk "publication" none none
    [.mk "content" none none [c6bc],
     .mk "bauherrschaft" (some "X") none []]

/-- Counterexample to C6: the tier-1 block exists and has no structured
person or company children, yet extraction does not return the block's raw
text (`""`): the empty fallback string is falsy, so the tier-3 heuristic
runs and returns `"X"` from elsewhere in the document. -/
theorem c6_empty_raw_counterexample :
    findDescChild c6root "content" "buildingContractor" = some c6bc ∧
    zhPersons c6bc = [] ∧ zhCompanies c6bc = [] ∧
    zhRawFallback c6bc = "" ∧
    extract_bauherrschaft (some c6root) "ZH" = "X" ∧
    ("X" : String) ≠ zhRawFallback c6bc :=
  ⟨rfl, rfl, rfl, by decide, by decide, by decide⟩

/-- C6 (amended): when the ZH tier-1 block exists, has no structured person
or company children, and its raw whitespace-normalised text is non-empty,
extraction returns that raw text and neither tier 2 nor the tier-3
heuristic contribute; when the raw text is empty the heuristic runs
instead. -/
theorem c6_zh_raw_fallback_amended :
    ∀ (root bc : XmlNode),
      findDescChild root "content" "buildingContractor" = some bc →
      zhPersons bc = [] → zhCompanies bc = [] →
      zhRawFallback bc ≠ "" →
      extract_bauherrschaft_precise_zh root = zhRawFallback bc ∧
      extract_bauherrschaft (some root) "ZH" = zhRawFallback bc := by
  intro root bc hfind hp hc hraw
  have hpieces : zhPieces bc = [] := by
    rw [zhPieces, hp, hc]; rfl
  have hzh : extract_bauherrschaft_precise_zh root = zhRawFallback bc := by
    rw [extract_bauherrschaft_precise_zh, hfind]
    exact if_pos hpieces
  refine ⟨hzh, ?_⟩
  rw [extract_bauherrschaft]
  rw [if_pos rfl, hzh, if_pos hraw]

/-- ZH contractor block with no structured children but raw text. -/
def c6wbc : XmlNode :=
  .mk "buildingContractor" none none [.mk "note" (some " Hans  Muster ") none []]

/-- Document for the C6 witness. -/
def c6wroot : XmlNode :=
  .mk "publication" none none [.mk "content" none none [c6wbc]]

/-- Witness for C6 (amended) at a concrete document. -/
theorem c6_zh_raw_fallback_amended_witness :
    extract_bauherrschaft_precise_zh c6wroot = zhRawFallback c6wbc ∧
    extract_bauherrschaft (some c6wroot) "ZH" = zhRawFallback c6wbc :=
  c6_zh_raw_fallback_amended c6wroot c6wbc rfl rfl rfl (by decide)

/-! ## C7: ZH person/company rendering -/

/-- A string with empty character data is the empty string. -/
theorem str_eq_empty_of_data (s : String) (h : s.data = []) : s = "" := by
  cases s with
  | mk d => rw [show d = [] from h]

/-- Appending to a non-empty string stays non-empty. -/
theorem strApp_ne_empty_left (s t : String) (h : s ≠ "") : s ++ t ≠ "" := by
  intro he
  apply h
  have hd : s.data ++ t.data = [] := by
    have h2 := congrArg String.data he
    simpa using h2
  exact str_eq_empty_of_data s (List.append_eq_nil.mp hd).1

/-- Person element rendering to `"Acme AG (Main St 1)"`. -/
def c7person : XmlNode :=
  .mk "person" none none
    [.mk "prename" (some "Acme") none [],
     .mk "name" (some "AG") none [],
     .mk "addressSwitzerland" none none
       [.mk "street" (some "Main St") none [],
        .mk "houseNumber" (some "1") none []]]

/-- Company element rendering to the same `"Acme AG (Main St 1)"`. -/
def c7company : XmlNode :=
  .mk "company" none none
    [.mk "name" (some "Acme AG") none [],
     .mk "customAddress" (some "Main St 1") none []]

/-- ZH contractor block with exactly that one person and one company. -/
def c7bc : XmlNode :=
  .mk "buildingContractor" none none
    [.mk "persons" none none [c7person],
     .mk "companies" none none [c7company]]

/-- Document for the C7 counterexample. -/
def c7root : XmlNode :=
  .mk "publication" none none [.mk "content" none none [c7bc]]

/-- Counterexample to C7: a block with exactly one person (prename, name,
Swiss address) and one company (name, custom address) whose two rendered
entries coincide; the dedup collapses them, so the party field is a single
entry, not `"<person> | <company>"`. -/
theorem c7_identical_entries_counterexample :
    findDescChild c7root "content" "buildingContractor" = some c7bc ∧
    zhPersons c7bc = [c7person] ∧
    zhCompanies c7bc = [c7company] ∧
    zhPersonPiece c7person = some "Acme AG (Main St 1)" ∧
    companyPiece c7company = some "Acme AG (Main St 1)" ∧
    extract_bauherrschaft_precise_zh c7root = "Acme AG (Main St 1)" ∧
    ("Acme AG (Main St 1)" : String) ≠
      "Acme AG (Main St 1)" ++ " | " ++ "Acme AG (Main St 1)" :=
  ⟨rfl, rfl, rfl, by decide, by decide, by decide, by decide⟩

/-- C7 (amended): for a ZH block with exactly one person (non-empty prename
and name, present non-empty Swiss address) and one company (non-empty name,
present custom address with non-empty rendering), whose two rendered
entries differ, the party field is exactly
`"<prename name> (<address>)" ++ " | " ++ "<company> (<custom address>)"`,
person first. -/
theorem c7_person_company_format_amended :
    ∀ (root bc person company addr : XmlNode) (pre nm cn ca : String),
      findDescChild root "content" "buildingContractor" = some bc →
      zhPersons bc = [person] →
      zhCompanies bc = [company] →
      findtextDesc person "prename" = some pre →
      findtextDesc person "name" = some nm →
      trimS pre ≠ "" → trimS nm ≠ "" →
      findDesc person "addressSwitzerland" = some addr →
      zhAddrTxt addr ≠ "" →
      findtextDesc company "name" = some cn →
      trimS cn ≠ "" →
      findtextDesc company "customAddress" = some ca →
      nlToComma (trimS ca) ≠ "" →
      trimS pre ++ " " ++ trimS nm ++ " (" ++ zhAddrTxt addr ++ ")" ≠
        trimS cn ++ " (" ++ nlToComma (trimS ca) ++ ")" →
      extract_bauherrschaft_precise_zh root =
        trimS pre ++ " " ++ trimS nm ++ " (" ++ zhAddrTxt addr ++ ")" ++ " | " ++
        (trimS cn ++ " (" ++ nlToComma (trimS ca) ++ ")") := by
  intro root bc person company addr pre nm cn ca
  intro h1 h2 h3 h4 h5 hpre hnm h8 h9 h10 h11 h12 hca hne
  have hfull : personFullName person = trimS pre ++ " " ++ trimS nm := by
    rw [personFullName, h4, h5]
    simp [hpre, hnm, joinWith]
  have hfullne : trimS pre ++ " " ++ trimS nm ≠ "" :=
    strApp_ne_empty_left _ _ (strApp_ne_empty_left _ _ hpre)
  have hperson : zhPersonPiece person =
      some (trimS pre ++ " " ++ trimS nm ++ " (" ++ zhAddrTxt addr ++ ")") := by
    rw [zhPersonPiece, hfull, if_neg hfullne, h8]
    exact congrArg some (if_neg h9)
  have hcompany : companyPiece company =
      some (trimS cn ++ " (" ++ nlToComma (trimS ca) ++ ")") := by
    rw [companyPiece, h10]
    simp only [Option.getD_some]
    rw [if_neg h11, h12]
    simp only [Option.getD_some]
    rw [if_neg hca]
  have hpieces : zhPieces bc =
      [trimS pre ++ " " ++ trimS nm ++ " (" ++ zhAddrTxt addr ++ ")",
       trimS cn ++ " (" ++ nlToComma (trimS ca) ++ ")"] := by
    rw [zhPieces, h2, h3]
    simp [hperson, hcompany]
  have hpne : trimS pre ++ " " ++ trimS nm ++ " (" ++ zhAddrTxt addr ++ ")" ≠ "" :=
    strApp_ne_empty_left _ _ (strApp_ne_empty_left _ _
      (strApp_ne_empty_left _ _ (strApp_ne_empty_left _ _
        (strApp_ne_empty_left _ _ hpre))))
  have hcne : trimS cn ++ " (" ++ nlToComma (trimS ca) ++ ")" ≠ "" :=
    strApp_ne_empty_left _ _ (strApp_ne_empty_left _ _
      (strApp_ne_empty_left _ _ h11))
  have hstep : extract_bauherrschaft_precise_zh root =
      if zhPieces bc = [] then zhRawFallback bc
      else joinWith " | " (dedup (zhPieces bc)) := by
    rw [extract_bauherrschaft_precise_zh, h1]
  rw [hstep, hpieces, if_neg (by simp)]
  have hdd : dedup
      [trimS pre ++ " " ++ trimS nm ++ " (" ++ zhAddrTxt addr ++ ")",
       trimS cn ++ " (" ++ nlToComma (trimS ca) ++ ")"] =
      [trimS pre ++ " " ++ trimS nm ++ " (" ++ zhAddrTxt addr ++ ")",
       trimS cn ++ " (" ++ nlToComma (trimS ca) ++ ")"] := by
    rw [dedup, dedupeLoop, if_pos ⟨hpne, by simp⟩]
    rw [dedupeLoop, if_pos ⟨hcne, by simp; exact fun hh => hne hh.symm⟩]
    rw [dedupeLoop]
    simp
  rw [hdd]
  rfl

/-- Swiss address node for the C7 witness. -/
def c7waddr : XmlNode :=
  .mk "addressSwitzerland" none none
    [.mk "street" (some "Main St") none [],
     .mk "houseNumber" (some "1") none []]

/-- Person for the C7 witness. -/
def c7wperson : XmlNode :=
  .mk "person" none none
    [.mk "prename" (some "Jane") none [],
     .mk "name" (some "Doe") none [],
     c7waddr]

/-- Company for the C7 witness, with a multi-line custom address. -/
def c7wcompany : XmlNode :=
  .mk "company" none none
    [.mk "name" (some "Acme AG") none [],
     .mk "customAddress" (some "Bahnhofstrasse 5\n8001 Zug") none []]

/-- Contractor block for the C7 witness. -/
def c7wbc : XmlNode :=
  .mk "buildingContractor" none none
    [.mk "persons" none none [c7wperson],
     .mk "companies" none none [c7wcompany]]

/-- Document for the C7 witness. -/
def c7wroot : XmlNode :=
  .mk "publication" none none [.mk "content" none none [c7wbc]]

/-- Witness for C7 (amended) at a concrete document. -/
theorem c7_person_company_format_amended_witness :
    extract_bauherrschaft_precise_zh c7wroot =
      trimS "Jane" ++ " " ++ trimS "Doe" ++ " (" ++ zhAddrTxt c7waddr ++ ")" ++ " | " ++
      (trimS "Acme AG" ++ " (" ++ nlToComma (trimS "Bahnhofstrasse 5\n8001 Zug") ++ ")") :=
  c7_person_company_format_amended c7wroot c7wbc c7wperson c7wcompany c7waddr
    "Jane" "Doe" "Acme AG" "Bahnhofstrasse 5\n8001 Zug"
    rfl rfl rfl rfl rfl (by decide) (by decide) rfl (by decide) rfl (by decide)
    rfl (by decide) (by decide)

/-! ## C2: ZG container loop and generic fallback -/

/-- Zeta-reduced equation for one ZG container-loop iteration. -/
theorem zgContainerStep_eq (pieces : List String) (n : XmlNode) :
    zgContainerStep pieces n =
      if pieces ++ zgStructuredPieces n = [] then
        (if trimS (text_of n) ≠ "" then
          (pieces ++ zgStructuredPieces n) ++ [normWS (trimS (text_of n))]
         else pieces ++ zgStructuredPieces n)
      else pieces ++ zgStructuredPieces n := rfl

/-- Once the accumulated piece list is non-empty, containers that yield no
structured entries contribute nothing more. -/
theorem zgFold_frozen :
    ∀ (nodes : List XmlNode) (pieces : List String),
      (∀ n ∈ nodes, zgStructuredPieces n = []) → pieces ≠ [] →
      nodes.foldl zgContainerStep pieces = pieces := by
  intro nodes
  induction nodes with
  | nil => intro pieces _ _; rfl
  | cons n ns ih =>
    intro pieces hs hne
    rw [List.foldl_cons]
    have hstep : zgContainerStep pieces n = pieces := by
      rw [zgContainerStep_eq, hs n (List.mem_cons_self n ns), List.append_nil, if_neg hne]
    rw [hstep]
    exact ih pieces (fun m hm => hs m (List.mem_cons_of_mem n hm)) hne

/-- With no structured entries anywhere, the container loop yields the raw
text of the first container with non-empty text, or nothing at all. -/
theorem zgFold_of_no_pieces :
    ∀ (nodes : List XmlNode),
      (∀ n ∈ nodes, zgStructuredPieces n = []) →
      ((nodes.find? (fun n => decide (trimS (text_of n) ≠ "")) = none →
        nodes.foldl zgContainerStep [] = []) ∧
       (∀ n0, nodes.find? (fun n => decide (trimS (text_of n) ≠ "")) = some n0 →
        nodes.foldl zgContainerStep [] = [normWS (trimS (text_of n0))])) := by
  intro nodes
  induction nodes with
  | nil => exact fun _ => ⟨fun _ => rfl, fun n0 h => by cases h⟩
  | cons n ns ih =>
    intro hs
    have hsn := hs n (List.mem_cons_self n ns)
    have hstail : ∀ m ∈ ns, zgStructuredPieces m = [] :=
      fun m hm => hs m (List.mem_cons_of_mem n hm)
    by_cases ht : trimS (text_of n) ≠ ""
    · constructor
      · intro hfind
        rw [List.find?_cons_of_pos _ (by simpa using ht)] at hfind
        cases hfind
      · intro n0 hfind
        rw [List.find?_cons_of_pos _ (by simpa using ht)] at hfind
        obtain rfl := Option.some.inj hfind
        rw [List.foldl_cons]
        have hstep : zgContainerStep [] n = [normWS (trimS (text_of n))] := by
          rw [zgContainerStep_eq, hsn]
          simp [ht]
        rw [hstep]
        exact zgFold_frozen ns _ hstail (by simp)
    · push_neg at ht
      constructor
      · intro hfind
        rw [List.find?_cons_of_neg _ (by simp [ht])] at hfind
        rw [List.foldl_cons]
        have hstep : zgContainerStep [] n = [] := by
          rw [zgContainerStep_eq, hsn]
          simp [ht]
        rw [hstep]
        exact (ih hstail).1 hfind
      · intro n0 hfind
        rw [List.find?_cons_of_neg _ (by simp [ht])] at hfind
        rw [List.foldl_cons]
        have hstep : zgContainerStep [] n = [] := by
          rw [zgContainerStep_eq, hsn]
          simp [ht]
        rw [hstep]
        exact (ih hstail).2 n0 hfind

/-- C2 (amended): when no ZG container yields structured entries, the
result is the raw text of the *first* container with non-empty text (later
containers contribute nothing); only when every container has empty text
does the extractor fall back to the generic party/person/company nodes
anywhere under content. -/
theorem c2_zg_fallback_amended :
    ∀ (root content : XmlNode),
      findDesc root "content" = some content →
      (∀ n ∈ zgContainers content, zgStructuredPieces n = []) →
      ((∃ n0, (zgContainers content).find? (fun n => decide (trimS (text_of n) ≠ "")) = some n0 ∧
          extract_bauherrschaft_precise_zg root = normWS (trimS (text_of n0))) ∨
       ((zgContainers content).find? (fun n => decide (trimS (text_of n) ≠ "")) = none ∧
          zgFoldPieces content = [] ∧
          extract_bauherrschaft_precise_zg root =
            (if zgGenericPieces content = [] then ""
             else joinWith " | " (dedup (zgGenericPieces content))))) := by
  intro root content hc hs
  have hstep : extract_bauherrschaft_precise_zg root =
      if zgPieces content = [] then "" else joinWith " | " (dedup (zgPieces content)) := by
    rw [extract_bauherrschaft_precise_zg, hc]
  cases hfind : (zgContainers content).find? (fun n => decide (trimS (text_of n) ≠ "")) with
  | some n0 =>
    left
    refine ⟨n0, rfl, ?_⟩
    have hfold : zgFoldPieces content = [normWS (trimS (text_of n0))] := by
      rw [zgFoldPieces]
      exact (zgFold_of_no_pieces (zgContainers content) hs).2 n0 hfind
    have hzgp : zgPieces content = [normWS (trimS (text_of n0))] := by
      rw [zgPieces, hfold, if_neg (by simp)]
    rw [hstep, hzgp, if_neg (by simp)]
    exact joinWith_dedup_single _
  | none =>
    right
    have hfold : zgFoldPieces content = [] := by
      rw [zgFoldPieces]
      exact (zgFold_of_no_pieces (zgContainers content) hs).1 hfind
    refine ⟨rfl, hfold, ?_⟩
    have hzgp : zgPieces content = zgGenericPieces content := by
      rw [zgPieces, hfold, if_pos rfl]
    rw [hstep, hzgp]

/-- ZG content with two containers carrying raw text only. -/
def c2content : XmlNode :=
  .mk "content" none none
    [.mk "bauherrschaft" (some "A") none [],
     .mk "gesuchsteller" (some "B") none []]

/-- Document for the C2 counterexample. -/
def c2root : XmlNode := .mk "publication" none none [c2content]

/-- Counterexample to C2: no container yields structured entries and the
second container has raw text `"B"`, yet only the first container's text
`"A"` is returned — the claimed per-container raw-text contribution (which
would give `"A | B"`) does not happen, and the generic fallback never
runs. -/
theorem c2_first_container_only_counterexample :
    (∀ n ∈ zgContainers c2content, zgStructuredPieces n = []) ∧
    (∃ n ∈ zgContainers c2content, trimS (text_of n) = "B") ∧
    extract_bauherrschaft_precise_zg c2root = "A" ∧
    ("A" : String) ≠ "A | B" :=
  ⟨by decide, by decide, by decide, by decide⟩

/-- ZG content for the C2 witness: one container with raw text only. -/
def c2wcontent : XmlNode :=
  .mk "content" none none [.mk "gesuchsteller" (some " Muster  Bau AG ") none []]

/-- Document for the C2 witness. -/
def c2wroot : XmlNode := .mk "publication" none none [c2wcontent]

/-- Witness for C2 (amended) at a concrete document. -/
theorem c2_zg_fallback_amended_witness :
    (∃ n0, (zgContainers c2wcontent).find? (fun n => decide (trimS (text_of n) ≠ "")) = some n0 ∧
        extract_bauherrschaft_precise_zg c2wroot = normWS (trimS (text_of n0))) ∨
    ((zgContainers c2wcontent).find? (fun n => decide (trimS (text_of n) ≠ "")) = none ∧
        zgFoldPieces c2wcontent = [] ∧
        extract_bauherrschaft_precise_zg c2wroot =
          (if zgGenericPieces c2wcontent = [] then ""
           else joinWith " | " (dedup (zgGenericPieces c2wcontent)))) :=
  c2_zg_fallback_amended c2wroot c2wcontent rfl (by decide)

/-! ## C1 and C4: classifier correspondence -/

/-- Every configured keyword is a non-empty word. -/
theorem mfh_pats_ne_nil : ∀ p ∈ MFH_PATTERNS.map String.data, p ≠ [] := by decide

/-- The character preceding scan position `i`: the caller-supplied `prev`
at the start, otherwise the haystack character at `i - 1`. -/
def prevAt (prev : Option Char) (h : List Char) : Nat → Option Char
  | 0 => prev
  | i + 1 => some (h.getD i ' ')

/-- Shifting `prevAt` across a cons cell. -/
theorem prevAt_cons (prev : Option Char) (c : Char) (t : List Char) (i : Nat) :
    prevAt prev (c :: t) (i + 1) = prevAt (some c) t i := by
  cases i with
  | zero => rfl
  | succ j => simp [prevAt, List.getD]

/-- The case-insensitive prefix test, declaratively. -/
theorem prefixCI_iff : ∀ (p h : List Char),
    prefixCI p h = true ↔
      (p.length ≤ h.length ∧ (h.take p.length).map lowChar = p.map lowChar) := by
  intro p
  induction p with
  | nil => intro h; simp [prefixCI]
  | cons a ps ih =>
    intro h
    cases h with
    | nil => simp [prefixCI]
    | cons b hs =>
      have he : prefixCI (a :: ps) (b :: hs) = ((lowChar a == lowChar b) && prefixCI ps hs) := rfl
      rw [he, Bool.and_eq_true, beq_iff_eq, ih hs]
      simp only [List.length_cons, List.take_succ_cons, List.map_cons, List.cons.injEq,
        Nat.succ_le_succ_iff]
      constructor
      · rintro ⟨hab, hlen, hmap⟩
        exact ⟨hlen, hab.symm, hmap⟩
      · rintro ⟨hlen, hba, hmap⟩
        exact ⟨hba.symm, hlen, hmap⟩

/-- The trailing boundary of a match ending at offset `m`, declaratively. -/
theorem tailBoundary_drop_iff (h : List Char) (m : Nat) :
    tailBoundary (h.drop m) = true ↔
      (h.length ≤ m ∨ isWordChar (h.getD m ' ') = false) := by
  cases e : h.drop m with
  | nil =>
    have hlen : h.length ≤ m := List.drop_eq_nil_iff.mp e
    simp [e, tailBoundary, hlen]
  | cons c t =>
    have hlt : ¬ (h.length ≤ m) := by
      intro hle
      rw [List.drop_eq_nil_iff.mpr hle] at e
      cases e
    have hget : h.getD m ' ' = c := by
      have h1 : (h.drop m)[0]? = h[m + 0]? := List.getElem?_drop h m 0
      rw [e] at h1
      rw [List.getD_eq_getElem?_getD]
      simp at h1
      rw [← h1]
      rfl
    rw [List.getD_eq_getElem?_getD] at hget
    simp [tailBoundary, hlt, hget]

/-- The leading boundary at scan position `i` of the top-level search. -/
theorem boundaryOk_prevAt (h : List Char) (i : Nat) :
    boundaryOk (prevAt none h i) = true ↔
      (i = 0 ∨ isWordChar (h.getD (i - 1) ' ') = false) := by
  cases i with
  | zero => simp [prevAt, boundaryOk]
  | succ j => simp [prevAt, boundaryOk]

/-- `matchesHere` at a dropped suffix, declaratively. -/
theorem matchesHere_drop_iff (p h : List Char) (i : Nat) (hp : p ≠ []) :
    matchesHere p (h.drop i) = true ↔
      (i + p.length ≤ h.length ∧
       ((h.drop i).take p.length).map lowChar = p.map lowChar ∧
       (i + p.length = h.length ∨ isWordChar (h.getD (i + p.length) ' ') = false)) := by
  have hdd : (h.drop i).drop p.length = h.drop (i + p.length) := List.drop_drop p.length i h
  rw [matchesHere, Bool.and_eq_true, prefixCI_iff, hdd]
  constructor
  · rintro ⟨⟨hlen, hmap⟩, htb⟩
    have hldrop : (h.drop i).length = h.length - i := List.length_drop i h
    have hpne : 0 < p.length := List.length_pos.mpr hp
    have hlen2 : i + p.length ≤ h.length := by omega
    refine ⟨hlen2, hmap, ?_⟩
    rcases (tailBoundary_drop_iff h (i + p.length)).mp htb with hle | hw
    · exact Or.inl (le_antisymm hlen2 hle)
    · exact Or.inr hw
  · rintro ⟨hlen2, hmap, hbd⟩
    have hlen : p.length ≤ (h.drop i).length := by
      rw [List.length_drop]; omega
    refine ⟨⟨hlen, hmap⟩, ?_⟩
    apply (tailBoundary_drop_iff h (i + p.length)).mpr
    rcases hbd with he | hw
    · exact Or.inl (le_of_eq he.symm)
    · exact Or.inr hw

/-- One alternation branch matches at scan position `i` exactly when the
keyword occurs there with word boundaries. -/
theorem wordOccursAt_iff (p h : List Char) (i : Nat) (hp : p ≠ []) :
    (boundaryOk (prevAt none h i) && matchesHere p (h.drop i)) = true ↔
      WordOccursAt p h i := by
  rw [Bool.and_eq_true, boundaryOk_prevAt, matchesHere_drop_iff p h i hp, WordOccursAt]
  tauto

/-- No branch matches the empty haystack. -/
theorem tryPatsAt_nil_hay (pats : List (List Char)) (prev : Option Char)
    (hne : ∀ p ∈ pats, p ≠ []) : tryPatsAt pats prev [] = none := by
  induction pats with
  | nil => rfl
  | cons p ps ih =>
    have hp := hne p (List.mem_cons_self p ps)
    have hm : matchesHere p [] = false := by
      cases p with
      | nil => exact absurd rfl hp
      | cons a as => rfl
    rw [tryPatsAt, hm]
    simp only [Bool.and_false, Bool.false_eq_true, if_false]
    exact ih (fun q hq => hne q (List.mem_cons_of_mem p hq))

/-- The branch loop fails exactly when every branch fails. -/
theorem tryPatsAt_eq_none_iff (pats : List (List Char)) (prev : Option Char) (h : List Char) :
    tryPatsAt pats prev h = none ↔
      ∀ p ∈ pats, (boundaryOk prev && matchesHere p h) = false := by
  induction pats with
  | nil => simp [tryPatsAt]
  | cons p ps ih =>
    rw [tryPatsAt]
    by_cases hc : (boundaryOk prev && matchesHere p h) = true
    · rw [if_pos hc]
      constructor
      · intro habs; cases habs
      · intro hall
        have hp := hall p (List.mem_cons_self p ps)
        rw [hc] at hp; cases hp
    · rw [if_neg hc, ih]
      constructor
      · intro hall q hq
        rcases List.mem_cons.mp hq with rfl | hq
        · exact Bool.eq_false_iff.mpr hc
        · exact hall q hq
      · intro hall q hq
        exact hall q (List.mem_cons_of_mem p hq)

/-- A successful branch loop returns the verbatim haystack prefix matched
by one of the branches. -/
theorem tryPatsAt_eq_some (pats : List (List Char)) (prev : Option Char) (h : List Char)
    (s : List Char) (hs : tryPatsAt pats prev h = some s) :
    ∃ p ∈ pats, (boundaryOk prev && matchesHere p h) = true ∧ s = h.take p.length := by
  induction pats with
  | nil => cases hs
  | cons p ps ih =>
    rw [tryPatsAt] at hs
    by_cases hc : (boundaryOk prev && matchesHere p h) = true
    · rw [if_pos hc] at hs
      obtain rfl := (Option.some.inj hs).symm
      exact ⟨p, List.mem_cons_self p ps, hc, rfl⟩
    · rw [if_neg hc] at hs
      obtain ⟨q, hq, hcq, hsq⟩ := ih hs
      exact ⟨q, List.mem_cons_of_mem p hq, hcq, hsq⟩

/-- Unfolding equation for the scanner on the empty haystack. -/
theorem searchAux_nil (pats : List (List Char)) (prev : Option Char) :
    searchAux pats prev [] =
      match tryPatsAt pats prev [] with
      | some s => some s
      | none => none := rfl

/-- Unfolding equation for the scanner on a cons cell. -/
theorem searchAux_cons (pats : List (List Char)) (prev : Option Char) (c : Char)
    (t : List Char) :
    searchAux pats prev (c :: t) =
      match tryPatsAt pats prev (c :: t) with
      | some s => some s
      | none => searchAux pats (some c) t := rfl

/-- The scanner fails exactly when the branch loop fails at every scan
position. -/
theorem searchAux_eq_none_iff (pats : List (List Char)) (hne : ∀ p ∈ pats, p ≠ []) :
    ∀ (h : List Char) (prev : Option Char),
      searchAux pats prev h = none ↔
        ∀ i, tryPatsAt pats (prevAt prev h i) (h.drop i) = none := by
  intro h
  induction h with
  | nil =>
    intro prev
    constructor
    · intro _ i
      rw [List.drop_nil]
      exact tryPatsAt_nil_hay pats _ hne
    · intro _
      rw [searchAux_nil, tryPatsAt_nil_hay pats prev hne]
  | cons c t ih =>
    intro prev
    rw [searchAux_cons]
    cases htry : tryPatsAt pats prev (c :: t) with
    | some s =>
      constructor
      · intro habs; cases habs
      · intro hall
        have h0 : tryPatsAt pats prev (c :: t) = none := by
          have h1 := hall 0
          rw [List.drop_zero] at h1
          exact h1
        rw [htry] at h0
        cases h0
    | none =>
      rw [ih (some c)]
      constructor
      · intro hall i
        cases i with
        | zero =>
          rw [List.drop_zero]
          exact htry
        | succ j =>
          rw [prevAt_cons]
          exact hall j
      · intro hall i
        have h1 := hall (i + 1)
        rw [prevAt_cons] at h1
        exact h1

/-- A successful scan returns the branch-loop result of the first scan
position where some branch matches. -/
theorem searchAux_eq_some (pats : List (List Char)) (hne : ∀ p ∈ pats, p ≠ []) :
    ∀ (h : List Char) (prev : Option Char) (s : List Char),
      searchAux pats prev h = some s →
      ∃ i, tryPatsAt pats (prevAt prev h i) (h.drop i) = some s ∧
        ∀ j, j < i → tryPatsAt pats (prevAt prev h j) (h.drop j) = none := by
  intro h
  induction h with
  | nil =>
    intro prev s hs
    rw [searchAux_nil, tryPatsAt_nil_hay pats prev hne] at hs
    cases hs
  | cons c t ih =>
    intro prev s hs
    rw [searchAux_cons] at hs
    cases htry : tryPatsAt pats prev (c :: t) with
    | some s0 =>
      rw [htry] at hs
      obtain rfl := Option.some.inj hs
      refine ⟨0, ?_, ?_⟩
      · rw [List.drop_zero]
        exact htry
      · intro j hj
        cases hj
    | none =>
      rw [htry] at hs
      obtain ⟨i, hi, hbefore⟩ := ih (some c) s hs
      refine ⟨i + 1, ?_, ?_⟩
      · rw [prevAt_cons]
        exact hi
      · intro j hj
        cases j with
        | zero =>
          rw [List.drop_zero]
          exact htry
        | succ k =>
          rw [prevAt_cons]
          exact hbefore k (by omega)

/-- At one scan position the branch loop fails exactly when no configured
keyword occurs there. -/
theorem tryPats_none_iff_no_match (h : List Char) (i : Nat) :
    tryPatsAt (MFH_PATTERNS.map String.data) (prevAt none h i) (h.drop i) = none ↔
      ¬ MfhMatchAt h i := by
  rw [tryPatsAt_eq_none_iff]
  constructor
  · intro hall hm
    obtain ⟨q, hq, hocc⟩ := hm
    have hqd : q.data ∈ MFH_PATTERNS.map String.data := List.mem_map_of_mem _ hq
    have hf := hall q.data hqd
    have ht := (wordOccursAt_iff q.data h i (mfh_pats_ne_nil q.data hqd)).mpr hocc
    rw [hf] at ht
    cases ht
  · intro hno p hpmem
    rcases List.mem_map.mp hpmem with ⟨q, hq, rfl⟩
    apply Bool.eq_false_iff.mpr
    intro htrue
    exact hno ⟨q, hq, (wordOccursAt_iff q.data h i (mfh_pats_ne_nil _ hpmem)).mp htrue⟩

/-- C4: on any document and title, the classifier searches the haystack
built from the title, the project description (when present) and the
content text; it returns `none` exactly when no configured keyword occurs
word-boundary-delimited (case-insensitively) anywhere in the haystack, and
otherwise it returns, verbatim from the haystack (original casing), the
substring at the leftmost position where some configured keyword occurs. -/
theorem c4_classifier_first_match :
    ∀ (detail : Option XmlNode) (title : String),
      (is_mfh_like detail title = none ↔
        ∀ i, ¬ MfhMatchAt (mfhHaystack detail title).data i) ∧
      (∀ s, is_mfh_like detail title = some s →
        ∃ i, MfhMatchAt (mfhHaystack detail title).data i ∧
          (∀ j, j < i → ¬ MfhMatchAt (mfhHaystack detail title).data j) ∧
          s.data = ((mfhHaystack detail title).data.drop i).take s.data.length ∧
          (∃ p ∈ MFH_PATTERNS, WordOccursAt p.data (mfhHaystack detail title).data i)) := by
  intro detail title
  constructor
  · rw [is_mfh_like, Option.map_eq_none', mfhSearch,
      searchAux_eq_none_iff _ mfh_pats_ne_nil]
    constructor
    · intro hall i
      exact (tryPats_none_iff_no_match (mfhHaystack detail title).data i).mp (hall i)
    · intro hall i
      exact (tryPats_none_iff_no_match (mfhHaystack detail title).data i).mpr (hall i)
  · intro s hs
    rw [is_mfh_like] at hs
    obtain ⟨l, hl, rfl⟩ := Option.map_eq_some'.mp hs
    rw [mfhSearch] at hl
    obtain ⟨i, hi, hbefore⟩ :=
      searchAux_eq_some _ mfh_pats_ne_nil (mfhHaystack detail title).data none l hl
    obtain ⟨p, hp, hcond, hsl⟩ := tryPatsAt_eq_some _ _ _ l hi
    rcases List.mem_map.mp hp with ⟨q, hq, rfl⟩
    have hocc : WordOccursAt q.data (mfhHaystack detail title).data i :=
      (wordOccursAt_iff q.data _ i (mfh_pats_ne_nil _ hp)).mp hcond
    refine ⟨i, ⟨q, hq, hocc⟩, ?_, ?_, ⟨q, hq, hocc⟩⟩
    · intro j hj
      exact (tryPats_none_iff_no_match _ j).mp (hbefore j hj)
    · have hlen : l.length = q.data.length := by
        rw [hsl, List.length_take, List.length_drop]
        have h1 := hocc.1
        have h2 : q.data.length ≤ (mfhHaystack detail title).data.length - i := by omega
        omega
      show l = ((mfhHaystack detail title).data.drop i).take l.length
      rw [hlen, hsl]

/-- Counterexample to C1: with an unparsable detail document the classifier
still matches on the title alone, so it does not return `none` for every
title. -/
theorem c1_malformed_match_counterexample :
    is_mfh_like none "Neubau Mehrfamilienhaus" = some "Mehrfamilienhaus" ∧
    (some "Mehrfamilienhaus" : Option String) ≠ none :=
  ⟨by decide, by decide⟩

/-- C1 (amended): an unparsable detail document never raises (the embedding
is total) and contributes no text: the classifier then searches the title
alone, so it returns `none` whenever no configured keyword occurs in the
title. -/
theorem c1_malformed_no_title_match :
    ∀ title : String, (∀ i, ¬ MfhMatchAt title.data i) →
      is_mfh_like none title = none := by
  intro title hno
  have hH : mfhHaystack none title = title := rfl
  rw [is_mfh_like, hH, Option.map_eq_none', mfhSearch,
    searchAux_eq_none_iff _ mfh_pats_ne_nil]
  intro i
  exact (tryPats_none_iff_no_match title.data i).mpr (hno i)

/-- A keyword occurrence needs at least one haystack character, so checking
all positions below the length suffices. -/
theorem mfhMatchAt_all_of_bounded (h : List Char)
    (hb : ∀ i, i < h.length → ¬ MfhMatchAt h i) : ∀ i, ¬ MfhMatchAt h i := by
  intro i hm
  obtain ⟨p, hp, hocc⟩ := hm
  have hpne : p.data ≠ [] := by
    revert hp
    have hforall : ∀ q ∈ MFH_PATTERNS, q.data ≠ [] := by decide
    exact fun hp => hforall p hp
  have hplen : 0 < p.data.length := List.length_pos.mpr hpne
  have hlt : i < h.length := by
    have h1 := hocc.1
    omega
  exact hb i hlt ⟨p, hp, hocc⟩

/-- Witness for C1 (amended): a title without any configured keyword. -/
theorem c1_malformed_no_title_match_witness :
    is_mfh_like none "Baugesuch Garage Umbau" = none :=
  c1_malformed_no_title_match "Baugesuch Garage Umbau"
    (mfhMatchAt_all_of_bounded _ (by decide))

/-- Witness for C4: on a malformed document with title
`"Neubau Mehrfamilienhaus"` the classifier returns the verbatim leftmost
keyword occurrence. -/
theorem c4_classifier_first_match_witness :
    ∃ i, MfhMatchAt (mfhHaystack none "Neubau Mehrfamilienhaus").data i ∧
      (∀ j, j < i → ¬ MfhMatchAt (mfhHaystack none "Neubau Mehrfamilienhaus").data j) ∧
      ("Mehrfamilienhaus" : String).data =
        ((mfhHaystack none "Neubau Mehrfamilienhaus").data.drop i).take
          ("Mehrfamilienhaus" : String).data.length ∧
      (∃ p ∈ MFH_PATTERNS,
        WordOccursAt p.data (mfhHaystack none "Neubau Mehrfamilienhaus").data i) :=
  (c4_classifier_first_match none "Neubau Mehrfamilienhaus").2 "Mehrfamilienhaus" (by decide)

/-! ## C9: final sort -/

/-- The key order is total. -/
theorem tripleLe_total (a b : String × String × String) : tripleLe a b ∨ tripleLe b a := by
  rcases lt_trichotomy a.1 b.1 with h1 | h1 | h1
  · exact Or.inl (Or.inl h1)
  · rcases lt_trichotomy a.2.1 b.2.1 with h2 | h2 | h2
    · exact Or.inl (Or.inr ⟨h1, Or.inl h2⟩)
    · rcases le_total a.2.2 b.2.2 with h3 | h3
      · exact Or.inl (Or.inr ⟨h1, Or.inr ⟨h2, h3⟩⟩)
      · exact Or.inr (Or.inr ⟨h1.symm, Or.inr ⟨h2.symm, h3⟩⟩)
    · exact Or.inr (Or.inr ⟨h1.symm, Or.inl h2⟩)
  · exact Or.inr (Or.inl h1)

/-- The key order is transitive. -/
theorem tripleLe_trans (a b c : String × String × String)
    (hab : tripleLe a b) (hbc : tripleLe b c) : tripleLe a c := by
  rcases hab with h1 | ⟨h1, h2⟩
  · rcases hbc with g1 | ⟨g1, _⟩
    · exact Or.inl (h1.trans g1)
    · exact Or.inl (lt_of_lt_of_le h1 (le_of_eq g1))
  · rcases hbc with g1 | ⟨g1, g2⟩
    · exact Or.inl (lt_of_le_of_lt (le_of_eq h1) g1)
    · refine Or.inr ⟨h1.trans g1, ?_⟩
      rcases h2 with h2 | ⟨h2, h3⟩
      · rcases g2 with g2 | ⟨g2, _⟩
        · exact Or.inl (h2.trans g2)
        · exact Or.inl (lt_of_lt_of_le h2 (le_of_eq g2))
      · rcases g2 with g2 | ⟨g2, g3⟩
        · exact Or.inl (lt_of_le_of_lt (le_of_eq h2) g2)
        · exact Or.inr ⟨h2.trans g2, h3.trans g3⟩

/-- C9: the output handed to the CSV writer is a single sort, applied after
the whole result collection is assembled (never incrementally): it is
exactly `sortRecords` of the collected records, a permutation of them, and
it is ordered (descending, as `reverse=True` requests) by canton, then
date, then publication number. -/
theorem c9_final_sort :
    ∀ (fetchDetail : String → Option (Option XmlNode)) (items : List Item),
      mainResults fetchDetail items = sortRecords (collectResults fetchDetail items) ∧
      (mainResults fetchDetail items).Perm (collectResults fetchDetail items) ∧
      (mainResults fetchDetail items).Pairwise
        (fun a b => tripleLe (recKey b) (recKey a)) := by
  intro fetch items
  have htrans : ∀ a b c : OutputRecord,
      recLeDesc a b = true → recLeDesc b c = true → recLeDesc a c = true := by
    intro a b c hab hbc
    rw [recLeDesc, decide_eq_true_eq] at hab hbc ⊢
    exact tripleLe_trans _ _ _ hbc hab
  have htotal : ∀ a b : OutputRecord, (recLeDesc a b || recLeDesc b a) = true := by
    intro a b
    rw [Bool.or_eq_true, recLeDesc, recLeDesc, decide_eq_true_eq, decide_eq_true_eq]
    rcases tripleLe_total (recKey b) (recKey a) with h | h
    · exact Or.inl h
    · exact Or.inr h
  refine ⟨rfl, List.mergeSort_perm _ _, ?_⟩
  have hp := @List.sorted_mergeSort OutputRecord recLeDesc htrans htotal
    (collectResults fetch items)
  refine List.Pairwise.imp ?_ hp
  intro a b hab
  rw [recLeDesc, decide_eq_true_eq] at hab
  exact hab
